import Mathlib

set_option maxRecDepth 16384

/-!
Verification development for the results-fetching pipeline in
src/fetch_results.py.  The Python source is shallowly embedded below:
pure string processing becomes functions on List Char, the CSV dataset
file becomes an explicit Dataset value threaded through the accumulator,
and the network fetcher becomes an oracle of type
Option String -> Except Unit String.  Scanning loops that advance by
more than one character per step take an explicit fuel argument
(always called with the length of the input, which is an upper bound on
the number of steps), so every definition reduces inside the kernel.
-/

-- ===== Python string primitives =====

/-- Characters treated as whitespace by Python str.split and str.strip
(the standard ASCII whitespace plus the common Unicode space
characters, including U+00A0 which the nbsp entity decodes to). -/
def isPySpace (c : Char) : Bool :=
  c == ' ' || c == '\t' || c == '\n' || c == '\r' || c == '\x0b' || c == '\x0c' ||
  c == '\x1c' || c == '\x1d' || c == '\x1e' || c == '\x1f' || c == '\x85' ||
  c == '\u00a0' || c == '\u1680' || (0x2000 ≤ c.val && c.val ≤ 0x200a) ||
  c == '\u2028' || c == '\u2029' || c == '\u202f' || c == '\u205f' || c == '\u3000'

/-- Python str.strip on a character list: whitespace removed from both ends. -/
def pyStripL (l : List Char) : List Char :=
  ((l.dropWhile isPySpace).reverse.dropWhile isPySpace).reverse

/-- Python str.split with no separator: maximal runs of non-whitespace
characters, in order; cur accumulates the current word reversed. -/
def wordsAux (cur : List Char) : List Char → List (List Char)
  | [] => if cur.isEmpty then [] else [cur.reverse]
  | c :: cs =>
    if isPySpace c then
      if cur.isEmpty then wordsAux [] cs else cur.reverse :: wordsAux [] cs
    else wordsAux (c :: cur) cs

/-- Python " ".join on a list of words. -/
def joinWords : List (List Char) → List Char
  | [] => []
  | [w] => w
  | w :: ws => w ++ ' ' :: joinWords ws

/-- Model of html.unescape from the Python standard library, restricted
to the semicolon-terminated named entities relevant to this program
(the source feeds it report HTML whose entities are of this form). -/
def unescapeL : List Char → List Char
  | '&' :: 'a' :: 'm' :: 'p' :: ';' :: rest => '&' :: unescapeL rest
  | '&' :: 'l' :: 't' :: ';' :: rest => '<' :: unescapeL rest
  | '&' :: 'g' :: 't' :: ';' :: rest => '>' :: unescapeL rest
  | '&' :: 'q' :: 'u' :: 'o' :: 't' :: ';' :: rest => '"' :: unescapeL rest
  | '&' :: 'a' :: 'p' :: 'o' :: 's' :: ';' :: rest => '\'' :: unescapeL rest
  | '&' :: 'n' :: 'b' :: 's' :: 'p' :: ';' :: rest => '\u00a0' :: unescapeL rest
  | c :: rest => c :: unescapeL rest
  | [] => []

/-- Split a character list at the first occurrence of ch, returning the
parts before and after it. -/
def splitAtChar (ch : Char) : List Char → Option (List Char × List Char)
  | [] => none
  | c :: cs =>
    if c == ch then some ([], cs)
    else
      match splitAtChar ch cs with
      | none => none
      | some (b, a) => some (c :: b, a)

/-- The tag-removal pass of clean_text: Python re.sub of the pattern
consisting of a left angle bracket, one or more non-gt characters, and a
gt, replaced by the empty string.  A lone bracket pair and a bracket
with no closing gt are kept verbatim, exactly as the regex leaves them. -/
def stripTags : Nat → List Char → List Char
  | 0, l => l
  | _, [] => []
  | fuel + 1, c :: cs =>
    if c == '<' then
      match splitAtChar '>' cs with
      | some (before, after) =>
        if before.isEmpty then '<' :: stripTags fuel cs
        else stripTags fuel after
      | none => '<' :: stripTags fuel cs
    else c :: stripTags fuel cs

/-- Whole cleaning pipeline of clean_text on a character list: strip
tags, decode entities, collapse whitespace runs via split plus join,
strip the ends. -/
def cleanL (l : List Char) : List Char :=
  pyStripL (joinWords (wordsAux [] (unescapeL (stripTags l.length l))))

/-- Embedding of clean_text from src/fetch_results.py. -/
def clean_text (s : String) : String :=
  String.mk (cleanL s.data)

-- ===== Regex-scan primitives used by parse_results =====

/-- Exact-case literal match at the head of a list. -/
def hasPre : List Char → List Char → Bool
  | [], _ => true
  | _ :: _, [] => false
  | p :: ps, c :: cs => p == c && hasPre ps cs

/-- Case-insensitive literal match at the head of a list; the pattern is
stored lowercase and each subject character is lowered before comparing,
which models the IGNORECASE flag of the Python regexes (ASCII lowering,
as all the fixed patterns involved are ASCII). -/
def hasPreCI : List Char → List Char → Bool
  | [], _ => true
  | _ :: _, [] => false
  | p :: ps, c :: cs => p == c.toLower && hasPreCI ps cs

/-- Python substring test needle in hay (both supplied already lowered
by the caller when case-insensitivity is wanted). -/
def subList (needle : List Char) : List Char → Bool
  | [] => needle.isEmpty
  | c :: cs => hasPre needle (c :: cs) || subList needle cs

/-- A Python str lowered to a character list, via the ASCII lowering of
Char.toLower (the club names and filters this program compares are
ASCII). -/
def lowerS (s : String) : List Char :=
  s.data.map Char.toLower

/-- Scan to the first case-insensitive occurrence of pat, returning the
suffix that follows the matched pattern. -/
def scanToCI (pat : List Char) : List Char → Option (List Char)
  | [] => if hasPreCI pat [] then some [] else none
  | c :: cs =>
    if hasPreCI pat (c :: cs) then some ((c :: cs).drop pat.length)
    else scanToCI pat cs

/-- Split at the first case-insensitive occurrence of pat, returning the
part before the match and the suffix after the matched pattern. -/
def splitBeforeCI (pat : List Char) : List Char → Option (List Char × List Char)
  | [] => if hasPreCI pat [] then some ([], []) else none
  | c :: cs =>
    if hasPreCI pat (c :: cs) then some ([], (c :: cs).drop pat.length)
    else
      match splitBeforeCI pat cs with
      | none => none
      | some (b, a) => some (c :: b, a)

/-- Python re.split on a fixed case-insensitive literal pattern: the
parts of the subject between consecutive non-overlapping matches. -/
def splitAllCI (pat : List Char) : Nat → List Char → List (List Char)
  | 0, l => [l]
  | fuel + 1, l =>
    match splitBeforeCI pat l with
    | none => [l]
    | some (b, a) => b :: splitAllCI pat fuel a

/-- Drop characters up to and including the first gt character; this is
how the regexes of the source consume an opening tag body, since a
star of non-gt characters followed by gt always ends at the first gt. -/
def dropToGt : List Char → Option (List Char)
  | [] => none
  | c :: cs => if c == '>' then some cs else dropToGt cs

/-- Scan to the first position opening a table cell, that is a
case-insensitive th or td opening tag start, returning the suffix after
the three matched characters. -/
def scanToCell : List Char → Option (List Char)
  | [] => none
  | c :: cs =>
    if hasPreCI "<th".data (c :: cs) || hasPreCI "<td".data (c :: cs) then
      some ((c :: cs).drop 3)
    else scanToCell cs

/-- Split at the first case-insensitive closing th or td tag (the lazy
group of the cell regex ends at whichever closer occurs first). -/
def splitBeforeCellClose : List Char → Option (List Char × List Char)
  | [] => none
  | c :: cs =>
    if hasPreCI "</th>".data (c :: cs) || hasPreCI "</td>".data (c :: cs) then
      some ([], (c :: cs).drop 5)
    else
      match splitBeforeCellClose cs with
      | none => none
      | some (b, a) => some (c :: b, a)

/-- Python re.findall for the tr row pattern: each match is the lazy
group between an opening tr tag (its attributes consumed up to the
first gt) and the first closing tr tag; scanning resumes after the
closing tag, and a failed tail yields no further matches. -/
def findTRs : Nat → List Char → List (List Char)
  | 0, _ => []
  | fuel + 1, l =>
    match scanToCI "<tr".data l with
    | none => []
    | some afterOpen =>
      match dropToGt afterOpen with
      | none => []
      | some afterGt =>
        match splitBeforeCI "</tr>".data afterGt with
        | none => []
        | some (content, rest) => content :: findTRs fuel rest

/-- Python re.findall for the th or td cell pattern inside one row. -/
def findCells : Nat → List Char → List (List Char)
  | 0, _ => []
  | fuel + 1, l =>
    match scanToCell l with
    | none => []
    | some afterOpen =>
      match dropToGt afterOpen with
      | none => []
      | some afterGt =>
        match splitBeforeCellClose afterGt with
        | none => []
        | some (content, rest) => content :: findCells fuel rest

/-- The literal sentence preceding the event date in the report. -/
def dateLit : List Char :=
  "who participated at a parkrun on ".data

/-- Try to read the ten-character date group, four digits, dash, two
digits, dash, two digits, from the head of the list. -/
def grabDate : List Char → Option String
  | a :: b :: c :: d :: e :: f :: g :: h :: i :: j :: _ =>
    if a.isDigit && b.isDigit && c.isDigit && d.isDigit && e == '-' &&
       f.isDigit && g.isDigit && h == '-' && i.isDigit && j.isDigit then
      some (String.mk [a, b, c, d, e, f, g, h, i, j])
    else none
  | _ => none

/-- Python re.search for the event-date pattern: at each position the
fixed sentence must match exactly followed by the date group; the first
such position wins. -/
def findDate : List Char → Option String
  | [] => none
  | c :: cs =>
    match (if hasPre dateLit (c :: cs) then grabDate ((c :: cs).drop dateLit.length) else none) with
    | some s => some s
    | none => findDate cs

-- ===== Record model (Python dict of column name to cell text) =====

/-- A result record: the row mapping from column name to cleaned cell
text that parse_results builds; insertion-ordered association list with
at most one binding per key, like a Python dict. -/
abbrev Rec : Type := List (String × String)

/-- Python dict assignment d[k] = v: replace the value of an existing
binding in place, else append a new binding at the end. -/
def dset : Rec → String → String → Rec
  | [], k, v => [(k, v)]
  | (k1, v1) :: r, k, v =>
    if k1 = k then (k, v) :: r else (k1, v1) :: dset r k v

/-- Python dict d.get(k, dflt). -/
def rget : Rec → String → String → String
  | [], _, dflt => dflt
  | (k1, v1) :: r, k, dflt => if k1 = k then v1 else rget r k dflt

/-- Python dict d.keys(). -/
def keysOf (r : Rec) : List String :=
  r.map Prod.fst

/-- Column name for the cell at zero-based index j: the header at j if
present, else the synthesized overflow name with the one-based index. -/
def colName (headers : List String) (j : Nat) : String :=
  match headers[j]? with
  | some h => h
  | none => "Column" ++ toString (j + 1)

/-- Zip the cells of a data row against the headers, later assignments
overwriting earlier ones as in a Python dict. -/
def buildRowAux (headers : List String) : Nat → Rec → List String → Rec
  | _, acc, [] => acc
  | j, acc, cell :: cells => buildRowAux headers (j + 1) (dset acc (colName headers j) cell) cells

/-- The row dict built from one data row of a table. -/
def buildRow (headers cells : List String) : Rec :=
  buildRowAux headers 0 [] cells

-- ===== The parser =====

/-- Cleaned cell texts of one row: findall of the cell pattern, each
match passed through clean_text. -/
def cellsOf (row : List Char) : List String :=
  (findCells row.length row).map (fun c => String.mk (cleanL c))

/-- The row loop of parse_results over the rows of one table: the first
row carrying any cells becomes the header row when its index is zero,
every later row with cells becomes a record if and only if its Club
value contains the club filter as a case-insensitive substring; matching
records are annotated with the event name and the event date. -/
def rowsLoop (clubF evName evDate : String) : Nat → List String → List (List Char) → List Rec
  | _, _, [] => []
  | i, headers, row :: rest =>
    let cells := cellsOf row
    if cells.isEmpty then rowsLoop clubF evName evDate (i + 1) headers rest
    else if i == 0 then rowsLoop clubF evName evDate (i + 1) cells rest
    else
      let row_data := buildRow headers cells
      let club := rget row_data "Club" ""
      if subList (lowerS clubF) (lowerS club) then
        dset (dset row_data "Event" evName) "Date" evDate
          :: rowsLoop clubF evName evDate (i + 1) headers rest
      else rowsLoop clubF evName evDate (i + 1) headers rest

/-- Event name extraction from one section: the run of non-lt characters
at the start (which must be nonempty and be followed by the closing h2
tag), stripped, with a trailing case-insensitive parkrun suffix removed. -/
def h2Name (sec : List Char) : Option String :=
  let pre := sec.takeWhile (fun c => !(c == '<'))
  if pre.isEmpty then none
  else if hasPreCI "</h2>".data (sec.drop pre.length) then
    let t := pyStripL pre
    if hasPreCI " parkrun".data.reverse (t.reverse.map Char.toLower) then
      some (String.mk (t.take (t.length - 8)))
    else some (String.mk t)
  else none

/-- First table of a section: the text between the first gt closing an
opening table tag and the first closing table tag after it. -/
def tableContent (sec : List Char) : Option (List Char) :=
  match scanToCI "<table".data sec with
  | none => none
  | some afterOpen =>
    match dropToGt afterOpen with
    | none => none
    | some afterGt =>
      match splitBeforeCI "</table>".data afterGt with
      | none => none
      | some (content, _) => some content

/-- Records contributed by one section: nothing when the heading or the
table is missing, else the row loop over the rows of the first table. -/
def sectionRecords (clubF evDate : String) (sec : List Char) : List Rec :=
  match h2Name sec with
  | none => []
  | some evName =>
    match tableContent sec with
    | none => []
    | some tbl => rowsLoop clubF evName evDate 0 [] (findTRs tbl.length tbl)

/-- Embedding of parse_results from src/fetch_results.py.  The club
filter CLUB_NAME is passed explicitly as clubF; the fallback date taken
from the system clock when the report carries no date sentence is passed
explicitly as now (the source formats it as an ISO date, hence it is
never the empty string). -/
def parse_results (clubF now : String) (html : String) : List Rec :=
  let event_date := (findDate html.data).getD now
  let sections := splitAllCI "<h2>".data html.data.length html.data
  (sections.drop 1).flatMap (fun sec => sectionRecords clubF event_date sec)

-- ===== Persisted dataset, dedup store, accumulator =====

/-- The persisted CSV file: a header row of column names followed by raw
rows of cell strings.  The file path is abstracted away; the state of
the store is an Option Dataset, with none meaning the file does not
exist. -/
structure Dataset where
  header : List String
  rows : List (List String)
deriving DecidableEq

/-- An identity triple as csv.DictReader yields it: each slot is the
value of row.get for the field with default empty string; some s is a
Python str and none is the Python None that DictReader substitutes for
fields truncated from a short row. -/
abbrev Key : Type := Option String × Option String × Option String

/-- Index of the last occurrence of a name in the header, mirroring the
fact that dict of zip keeps the last assignment for duplicate names. -/
def lastIdxOf (f : String) : List String → Option Nat
  | [] => none
  | k :: ks =>
    match lastIdxOf f ks with
    | some i => some (i + 1)
    | none => if k = f then some 0 else none

/-- The value row.get(f, empty) produced by csv.DictReader for one raw
row read against the file header: a field absent from the header gives
the empty string default, a field whose column exists gives the cell at
that column, which is the None marker when the row is too short. -/
def getField (header row : List String) (f : String) : Option String :=
  match lastIdxOf f header with
  | none => some ""
  | some i => row[i]?

/-- The identity triple of one raw dataset row. -/
def rowKey (header row : List String) : Key :=
  (getField header row "Date", getField header row "Event", getField header row "parkrunner")

/-- Embedding of load_existing_results from src/fetch_results.py: a
missing file gives the empty collection, otherwise every non-blank row
(DictReader skips blank rows) contributes its identity triple; the
result is used only through membership, like the Python set. -/
def load_existing_results : Option Dataset → List Key
  | none => []
  | some ds => (ds.rows.filter (fun row => !row.isEmpty)).map (rowKey ds.header)

/-- The fixed canonical column order of save_results. -/
def canonicalFields : List String :=
  ["Date", "Event", "Position", "Gender Position", "parkrunner", "Club", "Time"]

/-- Insert a string into a sorted list, keeping it sorted. -/
def insertSorted (x : String) : List String → List String
  | [] => [x]
  | y :: ys => if x ≤ y then x :: y :: ys else y :: insertSorted x ys

/-- Insertion sort on strings, the same function as Python sorted
restricted to lists of distinct strings. -/
def insSort : List String → List String
  | [] => []
  | x :: xs => insertSorted x (insSort xs)

/-- The extra columns of a batch: the distinct keys of the records that
are not canonical, in sorted order. -/
def sortedExtras (results : List Rec) : List String :=
  insSort (((results.flatMap keysOf).dedup).filter (fun k => decide (k ∉ canonicalFields)))

/-- The fieldnames list of save_results: canonical columns then the
sorted extras. -/
def mkFieldnames (results : List Rec) : List String :=
  canonicalFields ++ sortedExtras results

/-- How csv.DictWriter serializes one record against fieldnames: one
cell per field, the empty string for fields the record lacks. -/
def serialize (fieldnames : List String) (r : Rec) : List String :=
  fieldnames.map (fun f => rget r f "")

/-- The identity triple of a new record, as save_results computes it
with r.get and the empty-string default. -/
def recordKey (r : Rec) : Key :=
  (some (rget r "Date" ""), some (rget r "Event" ""), some (rget r "parkrunner" ""))

/-- The duplicate filter of save_results: keep the records whose
identity triple is not among the keys loaded from the dataset before
any writing; with append mode off the loaded set is empty. -/
def filteredNew (results : List Rec) (st : Option Dataset) (append : Bool) : List Rec :=
  let existing := if append then load_existing_results st else []
  results.filter (fun r => decide (recordKey r ∉ existing))

/-- Embedding of save_results from src/fetch_results.py.  Returns the
new store state and the number of rows written, which the source
reports as Saved N new results (the empty-batch and all-duplicates
early returns write nothing and report zero). -/
def save_results (results : List Rec) (st : Option Dataset) (append : Bool) : Option Dataset × Nat :=
  if results.isEmpty then (st, 0)
  else
    let fieldnames := mkFieldnames results
    let new_results := filteredNew results st append
    if new_results.isEmpty then (st, 0)
    else
      match st, append with
      | some ds, true =>
        (some ⟨ds.header, ds.rows ++ new_results.map (serialize fieldnames)⟩, new_results.length)
      | some _, false =>
        (some ⟨fieldnames, new_results.map (serialize fieldnames)⟩, new_results.length)
      | none, _ =>
        (some ⟨fieldnames, new_results.map (serialize fieldnames)⟩, new_results.length)

/-- Embedding of fetch_single_week from src/fetch_results.py with the
transport step abstracted into the html argument: parse, then save in
append mode when any records were parsed.  The returned number is the
count of rows the save step wrote. -/
def fetch_single_week (clubF now html : String) (st : Option Dataset) : Option Dataset × Nat :=
  let results := parse_results clubF now html
  if results.isEmpty then (st, 0) else save_results results st true

/-- The identity triples of all rows physically present in the store. -/
def datasetKeys : Option Dataset → List Key
  | none => []
  | some ds => ds.rows.map (rowKey ds.header)

/-- Number of occurrences of an identity triple in a list of triples. -/
def keyCount (l : List Key) (k : Key) : Nat :=
  (l.filter (fun x => decide (x = k))).length

-- ===== Date arithmetic (datetime.strptime, timedelta, strftime) =====

/-- Day count of the proleptic Gregorian calendar for a civil date,
using floor division throughout (the standard civil-to-days
conversion); used to model datetime subtraction by a timedelta. -/
def daysFromCivil (y m d : Int) : Int :=
  let y1 := y - (if m ≤ 2 then 1 else 0)
  let era := Int.fdiv y1 400
  let yoe := y1 - era * 400
  let mp := m + (if 2 < m then -3 else 9)
  let doy := Int.fdiv (153 * mp + 2) 5 + d - 1
  let doe := yoe * 365 + Int.fdiv yoe 4 - Int.fdiv yoe 100 + doy
  era * 146097 + doe - 719468

/-- Inverse of daysFromCivil: the civil date of a day count. -/
def civilFromDays (z0 : Int) : Int × Int × Int :=
  let z := z0 + 719468
  let era := Int.fdiv z 146097
  let doe := z - era * 146097
  let yoe := Int.fdiv (doe - Int.fdiv doe 1460 + Int.fdiv doe 36524 - Int.fdiv doe 146096) 365
  let y := yoe + era * 400
  let doy := doe - (365 * yoe + Int.fdiv yoe 4 - Int.fdiv yoe 100)
  let mp := Int.fdiv (5 * doy + 2) 153
  let d := doy - Int.fdiv (153 * mp + 2) 5 + 1
  let m := mp + (if mp < 10 then 3 else -9)
  (y + (if m ≤ 2 then 1 else 0), m, d)

/-- Day count of the last day of a month, for the range check of
strptime. -/
def daysInMonth (y m : Int) : Int :=
  if m = 2 then
    if y % 4 = 0 && (y % 100 ≠ 0 || y % 400 = 0) then 29 else 28
  else if m = 4 || m = 6 || m = 9 || m = 11 then 30
  else 31

/-- Model of datetime.strptime with the ISO date format: ten characters,
digits and dashes in the fixed positions, with the month and day in
range (strptime raises on out-of-range values, modeled as none). -/
def parseDate (s : String) : Option (Int × Int × Int) :=
  match s.data with
  | [a, b, c, d, e, f, g, h, i, j] =>
    if a.isDigit && b.isDigit && c.isDigit && d.isDigit && e == '-' &&
       f.isDigit && g.isDigit && h == '-' && i.isDigit && j.isDigit then
      let y : Int := Int.ofNat ((a.toNat - 48) * 1000 + (b.toNat - 48) * 100 + (c.toNat - 48) * 10 + (d.toNat - 48))
      let m : Int := Int.ofNat ((f.toNat - 48) * 10 + (g.toNat - 48))
      let dd : Int := Int.ofNat ((i.toNat - 48) * 10 + (j.toNat - 48))
      if 1 ≤ y && 1 ≤ m && m ≤ 12 && 1 ≤ dd && dd ≤ daysInMonth y m then
        some (y, m, dd)
      else none
    else none
  | _ => none

/-- Two-digit zero-padded decimal rendering of a field value. -/
def pad2 (n : Int) : String :=
  if n.toNat < 10 then "0" ++ toString n.toNat else toString n.toNat

/-- Four-digit zero-padded decimal rendering of a year. -/
def pad4 (n : Int) : String :=
  if n.toNat < 10 then "000" ++ toString n.toNat
  else if n.toNat < 100 then "00" ++ toString n.toNat
  else if n.toNat < 1000 then "0" ++ toString n.toNat
  else toString n.toNat

/-- Model of strftime with the ISO date format. -/
def fmtDate (ymd : Int × Int × Int) : String :=
  pad4 ymd.1 ++ "-" ++ pad2 ymd.2.1 ++ "-" ++ pad2 ymd.2.2

/-- Subtraction of a number of days from a civil date, the model of
datetime minus timedelta. -/
def subDays (ymd : Int × Int × Int) (k : Int) : Int × Int × Int :=
  civilFromDays (daysFromCivil ymd.1 ymd.2.1 ymd.2.2 - k)

-- ===== Backfill workflow =====

/-- Embedding of backfill_weeks from src/fetch_results.py over a fetch
oracle: the initial fetch of the current report propagates its error;
a report without the date sentence ends the run; otherwise the latest
week is parsed and saved, then each previous week, seven more days back
each time, is fetched, parsed and saved, and a transport error on one
of those weeks abandons only that iteration of the loop. -/
def backfill_weeks (clubF now : String) (oracle : Option String → Except Unit String)
    (num_weeks : Nat) (st : Option Dataset) : Except Unit (Option Dataset) :=
  match oracle none with
  | .error e => .error e
  | .ok html =>
    match findDate html.data with
    | none => .ok st
    | some dstr =>
      match parseDate dstr with
      | none => .error ()
      | some latest =>
        let st1 := (save_results (parse_results clubF now html) st true).1
        .ok ((List.range' 1 (num_weeks - 1)).foldl
          (fun acc i =>
            let date_str := fmtDate (subDays latest (7 * (i : Int)))
            match oracle (some date_str) with
            | .error _ => acc
            | .ok h => (save_results (parse_results clubF now h) acc true).1)
          st1)

-- ===== Concrete inputs used by the theorems below =====

/-- A report with one section and one member row whose Club cell is
westbourne rc, in lowercase. -/
def demoHtmlA : String :=
  "who participated at a parkrun on 2024-06-01<h2>Foo parkrun</h2><table><tr><th>parkrunner</th><th>Club</th></tr><tr><td>Ann</td><td>westbourne rc</td></tr></table>"

/-- The same report with the row belonging to a different club. -/
def demoHtmlB : String :=
  "who participated at a parkrun on 2024-06-01<h2>Foo parkrun</h2><table><tr><th>parkrunner</th><th>Club</th></tr><tr><td>Ann</td><td>Other Harriers</td></tr></table>"

/-- A report whose table lists the same member twice, so one parse
produces two records with the same identity triple. -/
def demoHtmlDup : String :=
  "who participated at a parkrun on 2024-06-01<h2>Foo parkrun</h2><table><tr><th>parkrunner</th><th>Club</th></tr><tr><td>Ann</td><td>Westbourne RC</td></tr><tr><td>Ann</td><td>Westbourne RC</td></tr></table>"

/-- A report whose section heading text is a single space, so the
stripped event name is empty. -/
def demoHtmlBlank : String :=
  "who participated at a parkrun on 2024-06-01<h2> </h2><table><tr><th>parkrunner</th><th>Club</th></tr><tr><td>Ann</td><td>Westbourne RC</td></tr></table>"

/-- A report with two header cells and a data row of three cells. -/
def demoHtmlOverflow : String :=
  "who participated at a parkrun on 2024-06-01<h2>Foo parkrun</h2><table><tr><th>parkrunner</th><th>Club</th></tr><tr><td>Ann</td><td>Westbourne RC</td><td>22:10</td></tr></table>"

/-- The current report of the backfill scenario, dated 2024-06-01. -/
def demoHtmlCur : String := demoHtmlA

/-- The report of the week two weeks back in the backfill scenario. -/
def demoHtmlOld : String :=
  "who participated at a parkrun on 2024-05-18<h2>Bar parkrun</h2><table><tr><th>parkrunner</th><th>Club</th></tr><tr><td>Bob</td><td>Westbourne RC</td></tr></table>"

/-- Fetch oracle of the backfill scenario: the current report succeeds,
the week dated 2024-05-18 succeeds, every other historical week (in the
three-week run, exactly 2024-05-25) fails with a transport error. -/
def demoOracle : Option String → Except Unit String
  | none => .ok demoHtmlCur
  | some s => if s = "2024-05-18" then .ok demoHtmlOld else .error ()

/-- A dataset whose header has the three key columns but whose only
non-blank row is truncated to two cells, plus one blank row. -/
def demoTruncDS : Dataset :=
  ⟨["Date", "Event", "parkrunner"], [["2024-01-01", "Foo"], []]⟩

/-- An existing one-row dataset with the canonical header. -/
def demoDS3 : Dataset :=
  ⟨canonicalFields, [["2024-06-01", "Foo", "", "", "Ann", "Westbourne RC", ""]]⟩

/-- A new record that carries a column outside the canonical list. -/
def demoRec3 : Rec :=
  [("Date", "2024-06-08"), ("Event", "Foo"), ("parkrunner", "Bob"), ("Age Grade", "50.0%")]

/-- A plain record used to exercise the duplicate filter. -/
def demoRec5 : Rec :=
  [("Date", "2024-06-01"), ("Event", "Foo"), ("parkrunner", "Ann")]

-- ===== Helper lemmas =====

/-- Reading back the key just assigned returns the assigned value. -/
theorem rget_dset_same (r : Rec) (k v dflt : String) : rget (dset r k v) k dflt = v := by
  induction r with
  | nil => simp [dset, rget]
  | cons p r ih =>
    obtain ⟨k1, v1⟩ := p
    by_cases h : k1 = k
    · simp [dset, rget, h]
    · simp [dset, rget, h, ih]

/-- A successful last-index lookup is in bounds and points at the
looked-up name. -/
theorem lastIdxOf_spec (f : String) (l : List String) (i : Nat)
    (h : lastIdxOf f l = some i) : i < l.length ∧ l[i]? = some f := by
  induction l generalizing i with
  | nil => simp [lastIdxOf] at h
  | cons k ks ih =>
    rw [lastIdxOf] at h
    cases hrec : lastIdxOf f ks with
    | some j =>
      rw [hrec] at h
      injection h with h
      subst h
      obtain ⟨hlt, hget⟩ := ih j hrec
      exact ⟨Nat.succ_lt_succ hlt, by simpa using hget⟩
    | none =>
      rw [hrec] at h
      by_cases hk : k = f
      · simp [hk] at h
        subst h
        simp [hk]
      · simp [hk] at h

/-- A name that occurs in the list has a last index. -/
theorem lastIdxOf_isSome (f : String) (l : List String) (h : f ∈ l) :
    (lastIdxOf f l).isSome := by
  induction l with
  | nil => simp at h
  | cons k ks ih =>
    rw [lastIdxOf]
    cases hrec : lastIdxOf f ks with
    | some j => simp
    | none =>
      rcases List.mem_cons.mp h with h1 | h1
      · simp [h1.symm]
      · have := ih h1
        rw [hrec] at this
        simp at this

/-- Reading a field of a serialized row recovers the record value that
was written into that column. -/
theorem getField_serialize (fns : List String) (r : Rec) (f : String) (hf : f ∈ fns) :
    getField fns (serialize fns r) f = some (rget r f "") := by
  have hsome := lastIdxOf_isSome f fns hf
  cases hidx : lastIdxOf f fns with
  | none => rw [hidx] at hsome; simp at hsome
  | some i =>
    obtain ⟨hlt, hget⟩ := lastIdxOf_spec f fns i hidx
    simp only [getField, hidx, serialize, List.getElem?_map, hget, Option.map_some']

/-- Round trip: the identity triple read back from a serialized row is
the identity triple of the record, whenever the header contains the
three key columns. -/
theorem rowKey_serialize (fns : List String) (r : Rec)
    (h1 : "Date" ∈ fns) (h2 : "Event" ∈ fns) (h3 : "parkrunner" ∈ fns) :
    rowKey fns (serialize fns r) = recordKey r := by
  rw [rowKey, recordKey, getField_serialize fns r _ h1, getField_serialize fns r _ h2,
    getField_serialize fns r _ h3]

/-- The three key columns are in every fieldnames list. -/
theorem keyCols_mem_mkFieldnames (results : List Rec) :
    "Date" ∈ mkFieldnames results ∧ "Event" ∈ mkFieldnames results ∧
      "parkrunner" ∈ mkFieldnames results := by
  refine ⟨?_, ?_, ?_⟩ <;>
    exact List.mem_append_left _ (by decide)

/-- A serialized row is never blank. -/
theorem serialize_mkFieldnames_ne_nil (results : List Rec) (r : Rec) :
    (serialize (mkFieldnames results) r).isEmpty = false := by
  have : mkFieldnames results = "Date" :: (canonicalFields.tail ++ sortedExtras results) := by
    rfl
  rw [serialize, this]
  rfl

/-- Membership in an insertion step. -/
theorem mem_insertSorted (x a : String) (l : List String) :
    a ∈ insertSorted x l ↔ a = x ∨ a ∈ l := by
  induction l with
  | nil => simp [insertSorted]
  | cons y ys ih =>
    by_cases h : x ≤ y
    · simp [insertSorted, h]
    · simp only [insertSorted, if_neg h, List.mem_cons, ih]
      tauto

/-- Insertion preserves sortedness. -/
theorem sorted_insertSorted (x : String) (l : List String)
    (h : l.Sorted (· ≤ ·)) : (insertSorted x l).Sorted (· ≤ ·) := by
  induction l with
  | nil => simp [insertSorted]
  | cons y ys ih =>
    rw [List.sorted_cons] at h
    obtain ⟨hy, hys⟩ := h
    by_cases hxy : x ≤ y
    · rw [insertSorted, if_pos hxy, List.sorted_cons]
      refine ⟨?_, ?_⟩
      · intro b hb
        rcases List.mem_cons.mp hb with hb | hb
        · exact hb ▸ hxy
        · exact le_trans hxy (hy b hb)
      · rw [List.sorted_cons]
        exact ⟨hy, hys⟩
    · rw [insertSorted, if_neg hxy, List.sorted_cons]
      refine ⟨?_, ih hys⟩
      intro b hb
      rcases (mem_insertSorted x b ys).mp hb with hb | hb
      · exact hb ▸ le_of_not_le hxy
      · exact hy b hb

/-- Membership is preserved by the insertion sort. -/
theorem mem_insSort (a : String) (l : List String) : a ∈ insSort l ↔ a ∈ l := by
  induction l with
  | nil => simp [insSort]
  | cons x xs ih =>
    rw [insSort, mem_insertSorted, ih, List.mem_cons]

/-- The insertion sort sorts. -/
theorem sorted_insSort (l : List String) : (insSort l).Sorted (· ≤ ·) := by
  induction l with
  | nil => simp [insSort]
  | cons x xs ih => exact sorted_insertSorted x _ ih

/-- One step of the occurrence count. -/
theorem keyCount_cons (x : Key) (xs : List Key) (k : Key) :
    keyCount (x :: xs) k = (if x = k then 1 else 0) + keyCount xs k := by
  by_cases h : x = k
  · simp [keyCount, List.filter_cons, h, Nat.add_comm]
  · simp [keyCount, List.filter_cons, h]

/-- In a duplicate-free list of triples each member occurs once and
each non-member occurs zero times. -/
theorem keyCount_of_nodup (l : List Key) (hnd : l.Nodup) (k : Key) :
    keyCount l k = if k ∈ l then 1 else 0 := by
  induction l with
  | nil => simp [keyCount]
  | cons x xs ih =>
    rw [List.nodup_cons] at hnd
    obtain ⟨hx, hxs⟩ := hnd
    rw [keyCount_cons, ih hxs]
    by_cases hxk : x = k
    · subst hxk
      simp [hx]
    · by_cases hm : k ∈ xs
      · simp [hxk, hm, List.mem_cons.mpr (Or.inr hm)]
      · have hnc : k ∉ x :: xs := by
          rw [List.mem_cons]
          rintro (h | h)
          · exact hxk h.symm
          · exact hm h
        simp [hxk, hm, hnc]

/-- C2: the accumulate operation reports the count of records actually
written after duplicate filtering, and whenever the post-filter batch is
empty, in particular when the batch is empty or every identity triple
already exists, it leaves the store untouched and reports zero. -/
theorem c2_save_reports_postfilter_count (results : List Rec) (st : Option Dataset) (append : Bool) :
    (save_results results st append).2 = (filteredNew results st append).length
    ∧ (filteredNew results st append = [] → save_results results st append = (st, 0)) := by
  by_cases h1 : results.isEmpty = true
  · have hnil : results = [] := by
      cases results with
      | nil => rfl
      | cons a l => simp at h1
    subst hnil
    simp [save_results, filteredNew]
  · by_cases h2 : (filteredNew results st append).isEmpty = true
    · have h2' : filteredNew results st append = [] := by
        cases h : filteredNew results st append with
        | nil => rfl
        | cons a l => rw [h] at h2; simp at h2
      refine ⟨?_, fun _ => ?_⟩ <;> simp [save_results, h1, h2']
    · have h2' : filteredNew results st append ≠ [] := by
        intro h
        rw [h] at h2
        simp at h2
      refine ⟨?_, fun h => absurd h h2'⟩
      rcases st with _ | ds <;> rcases append with _ | _ <;>
        simp [save_results, h1, h2]

/-- Witness for C2 at a concrete input. -/
theorem c2_witness :
    (save_results [] none true).2 = (filteredNew [] none true).length
    ∧ save_results [] none true = (none, 0) := by
  have h := c2_save_reports_postfilter_count [] none true
  exact ⟨h.1, h.2 (by decide)⟩

/-- C5: within one accumulate call each record is checked only against
the keys loaded before writing begins, never against records accepted
earlier in the batch: membership in the filtered batch depends only on
the preloaded keys, and two records sharing an identity triple absent
from the dataset are both written. -/
theorem c5_batch_checked_against_preloaded_only :
    (∀ (results : List Rec) (st : Option Dataset) (r : Rec),
        r ∈ results → recordKey r ∉ load_existing_results st → r ∈ filteredNew results st true)
    ∧ (∀ (st : Option Dataset) (r1 r2 : Rec),
        recordKey r1 ∉ load_existing_results st → recordKey r2 ∉ load_existing_results st →
        (save_results [r1, r2] st true).2 = 2) := by
  constructor
  · intro results st r hr hk
    rw [filteredNew]
    simp only [if_pos rfl]
    exact List.mem_filter.mpr ⟨hr, by simpa using hk⟩
  · intro st r1 r2 h1 h2
    have hfil : filteredNew [r1, r2] st true = [r1, r2] := by
      simp [filteredNew, List.filter_cons, h1, h2]
    rcases st with _ | ds <;>
      simp [save_results, hfil]

/-- Witness for C5 at a concrete input. -/
theorem c5_witness : (save_results [demoRec5, demoRec5] none true).2 = 2 :=
  c5_batch_checked_against_preloaded_only.2 none demoRec5 demoRec5 (by decide) (by decide)

/-- C9 counterexample: a dataset row truncated before the participant
column contributes the missing-value marker for that slot, not the
empty string, so the claim that every missing field contributes the
empty string is false; the blank row is also skipped rather than
contributing a triple. -/
theorem c9_counterexample :
    load_existing_results (some demoTruncDS)
      = [(some "2024-01-01", some "Foo", (none : Option String))]
    ∧ (some "2024-01-01", some "Foo", (some "" : Option String))
        ∉ load_existing_results (some demoTruncDS) := by
  constructor
  · decide
  · decide

/-- C9 amended: loading from a missing dataset yields the empty set;
otherwise exactly the non-blank rows contribute, one identity triple
each, with no failure; a key field whose column is absent from the
header contributes the empty string, while a key field whose column
exists but whose cell is truncated from a short row contributes the
reader missing-value marker. -/
theorem c9_amended_load_semantics :
    load_existing_results none = []
    ∧ (∀ (ds : Dataset) (k : Key),
        k ∈ load_existing_results (some ds)
          ↔ ∃ row, row ∈ ds.rows ∧ row ≠ [] ∧ rowKey ds.header row = k)
    ∧ (∀ (header row : List String) (f : String), f ∉ header → getField header row f = some "")
    ∧ (∀ (header row : List String) (f : String) (i : Nat),
        lastIdxOf f header = some i → row.length ≤ i → getField header row f = none) := by
  refine ⟨rfl, ?_, ?_, ?_⟩
  · intro ds k
    simp only [load_existing_results, List.mem_map, List.mem_filter]
    constructor
    · rintro ⟨row, ⟨hmem, hne⟩, hk⟩
      refine ⟨row, hmem, ?_, hk⟩
      intro h
      rw [h] at hne
      simp at hne
    · rintro ⟨row, hmem, hne, hk⟩
      refine ⟨row, ⟨hmem, ?_⟩, hk⟩
      cases row with
      | nil => exact absurd rfl hne
      | cons a l => simp
  · intro header row f hf
    cases hidx : lastIdxOf f header with
    | none => rw [getField, hidx]
    | some i =>
      obtain ⟨hlt, hget⟩ := lastIdxOf_spec f header i hidx
      exact absurd (List.getElem?_mem hget) hf
  · intro header row f i hidx hlen
    rw [getField, hidx]
    exact List.getElem?_eq_none hlen

/-- Witness for C9 at concrete inputs. -/
theorem c9_witness :
    ((some "2024-01-01", some "Foo", (none : Option String))
        ∈ load_existing_results (some demoTruncDS))
    ∧ getField ["Date"] ["x"] "Event" = some ""
    ∧ getField ["Date", "Event"] ["x"] "Event" = none := by
  refine ⟨?_, ?_, ?_⟩
  · exact (c9_amended_load_semantics.2.1 demoTruncDS _).mpr
      ⟨["2024-01-01", "Foo"], by decide, by decide, by decide⟩
  · exact c9_amended_load_semantics.2.2.1 ["Date"] ["x"] "Event" (by decide)
  · exact c9_amended_load_semantics.2.2.2 ["Date", "Event"] ["x"] "Event" 1 (by decide) (by decide)

/-- C3 counterexample: accumulating a record carrying the extra column
Age Grade into an existing dataset in append mode writes the record but
leaves the persisted header row without that column, contradicting the
claim that the header is extended. -/
theorem c3_counterexample :
    save_results [demoRec3] (some demoDS3) true
      = (some ⟨canonicalFields,
          [["2024-06-01", "Foo", "", "", "Ann", "Westbourne RC", ""],
           ["2024-06-08", "Foo", "", "", "Bob", "", "", "50.0%"]]⟩, 1)
    ∧ "Age Grade" ∈ keysOf demoRec3
    ∧ "Age Grade" ∉ canonicalFields := by
  refine ⟨by decide, by decide, by decide⟩

/-- C3 amended: appending to an existing dataset preserves the header
row and the previously written rows unchanged, appending the filtered
records serialized against the extended column list; only a call that
creates or overwrites the dataset, that is when no file exists or
append mode is off, writes a header consisting of the canonical columns
followed by the extra columns, and those extras are exactly the
non-canonical record columns in sorted order. -/
theorem c3_amended_header_growth :
    (∀ (results : List Rec) (ds : Dataset),
        (save_results results (some ds) true).1
          = some ⟨ds.header,
              ds.rows ++ (filteredNew results (some ds) true).map (serialize (mkFieldnames results))⟩)
    ∧ (∀ (results : List Rec) (st : Option Dataset) (append : Bool),
        filteredNew results st append ≠ [] → (st = none ∨ append = false) →
        (save_results results st append).1
          = some ⟨mkFieldnames results,
              (filteredNew results st append).map (serialize (mkFieldnames results))⟩)
    ∧ (∀ results : List Rec, (sortedExtras results).Sorted (· ≤ ·))
    ∧ (∀ (results : List Rec) (k : String),
        k ∈ sortedExtras results ↔ k ∈ results.flatMap keysOf ∧ k ∉ canonicalFields) := by
  refine ⟨?_, ?_, ?_, ?_⟩
  · intro results ds
    by_cases h1 : results.isEmpty = true
    · have hnil : results = [] := by
        cases results with
        | nil => rfl
        | cons a l => simp at h1
      subst hnil
      simp [save_results, filteredNew]
    · by_cases h2 : (filteredNew results (some ds) true).isEmpty = true
      · have h2' : filteredNew results (some ds) true = [] := by
          cases h : filteredNew results (some ds) true with
          | nil => rfl
          | cons a l => rw [h] at h2; simp at h2
        simp [save_results, h1, h2, h2']
      · simp [save_results, h1, h2]
  · intro results st append hne hor
    have h1 : results.isEmpty = false := by
      cases results with
      | nil => exact absurd rfl hne
      | cons a l => rfl
    have h2 : (filteredNew results st append).isEmpty = false := by
      cases h : filteredNew results st append with
      | nil => exact absurd h hne
      | cons a l => rfl
    rcases hor with h | h
    · subst h
      rcases append with _ | _ <;> simp [save_results, h1, h2]
    · subst h
      rcases st with _ | ds <;> simp [save_results, h1, h2]
  · intro results
    exact sorted_insSort _
  · intro results k
    rw [sortedExtras, mem_insSort, List.mem_filter, List.mem_dedup]
    simp

/-- Witness for C3 at a concrete input. -/
theorem c3_witness :
    (save_results [demoRec3] none true).1
      = some ⟨mkFieldnames [demoRec3],
          (filteredNew [demoRec3] none true).map (serialize (mkFieldnames [demoRec3]))⟩ :=
  c3_amended_header_growth.2.1 [demoRec3] none true (by decide) (Or.inl rfl)

/-- When the filtered batch is empty the save is a no-op reporting
zero. -/
theorem save_results_of_filtered_nil (results : List Rec) (st : Option Dataset) (append : Bool)
    (h : filteredNew results st append = []) : save_results results st append = (st, 0) := by
  by_cases h1 : results.isEmpty = true
  · have hnil : results = [] := by
      cases results with
      | nil => rfl
      | cons a l => simp at h1
    subst hnil
    simp [save_results]
  · have h2 : (filteredNew results st append).isEmpty = true := by
      rw [h]
      rfl
    simp [save_results, h1, h2]

/-- With no existing dataset the duplicate filter keeps every record. -/
theorem filteredNew_none_append (results : List Rec) :
    filteredNew results none true = results := by
  rw [filteredNew]
  simp [load_existing_results]

/-- Saving a nonempty batch into a missing dataset creates it with the
computed fieldnames as header and the serialized batch as rows. -/
theorem save_results_none_append (results : List Rec) (hne : results ≠ []) :
    save_results results none true
      = (some ⟨mkFieldnames results, results.map (serialize (mkFieldnames results))⟩,
         results.length) := by
  have h1 : results.isEmpty = false := by
    cases results with
    | nil => exact absurd rfl hne
    | cons a l => rfl
  have hfil := filteredNew_none_append results
  have h2 : (filteredNew results none true).isEmpty = false := by
    rw [hfil]
    cases results with
    | nil => exact absurd rfl hne
    | cons a l => rfl
  simp [save_results, h1, h2, hfil]

/-- Saving a batch whose every identity triple is already loaded is a
no-op reporting zero. -/
theorem save_results_all_duplicate (results : List Rec) (st : Option Dataset)
    (h : ∀ r ∈ results, recordKey r ∈ load_existing_results st) :
    save_results results st true = (st, 0) := by
  apply save_results_of_filtered_nil
  rw [filteredNew]
  simp only [if_pos rfl]
  apply List.filter_eq_nil_iff.mpr
  intro r hr
  simp [h r hr]

/-- The triples read back row by row from a freshly created dataset are
exactly the record triples of the batch that was written. -/
theorem load_of_created (results : List Rec) :
    load_existing_results
        (some ⟨mkFieldnames results, results.map (serialize (mkFieldnames results))⟩)
      = results.map recordKey := by
  obtain ⟨hd, he, hp⟩ := keyCols_mem_mkFieldnames results
  rw [load_existing_results]
  have hfil : (results.map (serialize (mkFieldnames results))).filter (fun row => !row.isEmpty)
      = results.map (serialize (mkFieldnames results)) := by
    apply List.filter_eq_self.mpr
    intro row hrow
    obtain ⟨r, hr, hser⟩ := List.mem_map.mp hrow
    rw [← hser]
    simp [serialize_mkFieldnames_ne_nil results r]
  rw [hfil, List.map_map]
  apply List.map_congr_left
  intro r hr
  exact rowKey_serialize (mkFieldnames results) r hd he hp

/-- The physical triples of a freshly created dataset are the record
triples of the batch. -/
theorem datasetKeys_of_created (results : List Rec) :
    datasetKeys
        (some ⟨mkFieldnames results, results.map (serialize (mkFieldnames results))⟩)
      = results.map recordKey := by
  obtain ⟨hd, he, hp⟩ := keyCols_mem_mkFieldnames results
  rw [datasetKeys, List.map_map]
  apply List.map_congr_left
  intro r hr
  exact rowKey_serialize (mkFieldnames results) r hd he hp

/-- C1 amended: starting from a missing dataset, running the single
fetch twice against identical input HTML in append mode leaves the
store unchanged on the second run with zero rows written, and when the
records of one parse have pairwise distinct identity triples the
resulting dataset holds each parsed triple in exactly one row and no
other triple. -/
theorem c1_amended_single_fetch_idempotent (clubF now html : String)
    (hnd : ((parse_results clubF now html).map recordKey).Nodup) :
    fetch_single_week clubF now html (fetch_single_week clubF now html none).1
        = ((fetch_single_week clubF now html none).1, 0)
    ∧ ∀ k : Key,
        keyCount (datasetKeys (fetch_single_week clubF now html none).1) k
          = if k ∈ (parse_results clubF now html).map recordKey then 1 else 0 := by
  cases hres : parse_results clubF now html with
  | nil =>
    have hfe : fetch_single_week clubF now html none = (none, 0) := by
      simp [fetch_single_week, hres]
    rw [hfe]
    constructor
    · simp [fetch_single_week, hres]
    · intro k
      simp [datasetKeys, keyCount, hres]
  | cons r rs =>
    have hne : parse_results clubF now html ≠ [] := by
      rw [hres]
      simp
    have hieF : (parse_results clubF now html).isEmpty = false := by
      rw [hres]
      rfl
    have hfe1 : fetch_single_week clubF now html none
        = (some ⟨mkFieldnames (parse_results clubF now html),
            (parse_results clubF now html).map (serialize (mkFieldnames (parse_results clubF now html)))⟩,
           (parse_results clubF now html).length) := by
      rw [fetch_single_week]
      simp only [hieF, Bool.false_eq_true, if_false]
      exact save_results_none_append _ hne
    rw [hfe1]
    constructor
    · rw [fetch_single_week]
      simp only [hieF, Bool.false_eq_true, if_false]
      apply save_results_all_duplicate
      intro r2 hr2
      rw [load_of_created]
      exact List.mem_map_of_mem recordKey hr2
    · intro k
      rw [datasetKeys_of_created, keyCount_of_nodup _ hnd, hres]

/-- C1 counterexample: a report listing the same member twice in one
table yields, after two identical runs from a missing dataset, a
dataset holding that identity triple in two rows, so the dataset does
not contain each distinct triple exactly once. -/
theorem c1_counterexample :
    keyCount
      (datasetKeys
        (fetch_single_week "Westbourne" "1970-01-01" demoHtmlDup
          (fetch_single_week "Westbourne" "1970-01-01" demoHtmlDup none).1).1)
      (some "2024-06-01", some "Foo", some "Ann") = 2 := by
  decide

/-- Witness for C1 at a concrete input. -/
theorem c1_witness :
    ((parse_results "Westbourne" "1970-01-01" demoHtmlA).map recordKey).Nodup
    ∧ fetch_single_week "Westbourne" "1970-01-01" demoHtmlA
        (fetch_single_week "Westbourne" "1970-01-01" demoHtmlA none).1
      = ((fetch_single_week "Westbourne" "1970-01-01" demoHtmlA none).1, 0) :=
  ⟨by decide,
   (c1_amended_single_fetch_idempotent "Westbourne" "1970-01-01" demoHtmlA (by decide)).1⟩

/-- A date grabbed from the ten-character group is never empty. -/
theorem grabDate_ne_empty (l : List Char) (s : String) (h : grabDate l = some s) : s ≠ "" := by
  unfold grabDate at h
  split at h
  · split at h
    · injection h with h
      intro hcontra
      rw [hcontra] at h
      exact absurd (congrArg String.data h) (by simp)
    · exact absurd h (by simp)
  · exact absurd h (by simp)

/-- A date found in the document is never empty. -/
theorem findDate_ne_empty (l : List Char) (s : String) (h : findDate l = some s) : s ≠ "" := by
  induction l with
  | nil => simp [findDate] at h
  | cons c cs ih =>
    rw [findDate] at h
    cases hhead : (if hasPre dateLit (c :: cs) then grabDate ((c :: cs).drop dateLit.length) else none) with
    | some s2 =>
      rw [hhead] at h
      injection h with h
      subst h
      by_cases hpre : hasPre dateLit (c :: cs) = true
      · rw [if_pos hpre] at hhead
        exact grabDate_ne_empty _ _ hhead
      · rw [if_neg hpre] at hhead
        exact absurd hhead (by simp)
    | none =>
      rw [hhead] at h
      exact ih h

/-- Every record the row loop produces carries the event date in its
Date column. -/
theorem rowsLoop_date (clubF ev d : String) :
    ∀ (rows : List (List Char)) (i : Nat) (hs : List String) (r : Rec),
      r ∈ rowsLoop clubF ev d i hs rows → rget r "Date" "" = d := by
  intro rows
  induction rows with
  | nil =>
    intro i hs r h
    simp [rowsLoop] at h
  | cons row rest ih =>
    intro i hs r h
    by_cases h1 : (cellsOf row).isEmpty = true
    · rw [rowsLoop] at h
      simp only [h1, if_true] at h
      exact ih _ _ r h
    · by_cases h2 : (i == 0) = true
      · rw [rowsLoop] at h
        simp only [h1, h2, Bool.false_eq_true, if_false, if_true] at h
        exact ih _ _ r h
      · by_cases h3 : subList (lowerS clubF) (lowerS (rget (buildRow hs (cellsOf row)) "Club" "")) = true
        · rw [rowsLoop] at h
          simp only [h1, h2, h3, Bool.false_eq_true, if_false, if_true] at h
          rcases List.mem_cons.mp h with h4 | h4
          · rw [h4]
            exact rget_dset_same _ _ _ _
          · exact ih _ _ r h4
        · rw [rowsLoop] at h
          simp only [h1, h2, h3, Bool.false_eq_true, if_false] at h
          exact ih _ _ r h

/-- Every record a section contributes carries the event date. -/
theorem sectionRecords_date (clubF d : String) (sec : List Char) (r : Rec)
    (h : r ∈ sectionRecords clubF d sec) : rget r "Date" "" = d := by
  rw [sectionRecords] at h
  cases hname : h2Name sec with
  | none => rw [hname] at h; simp at h
  | some evName =>
    rw [hname] at h
    cases htbl : tableContent sec with
    | none => rw [htbl] at h; simp at h
    | some tbl =>
      rw [htbl] at h
      exact rowsLoop_date clubF evName d _ _ _ r h

/-- C4 amended: every record the parser produces carries a non-empty
Date value (the fallback now string is the formatted current date and
hence non-empty); the original claim also asserted a non-empty Event
value, which the counterexample refutes. -/
theorem c4_amended_nonempty_date (clubF now html : String) (hnow : now ≠ "") :
    ∀ r ∈ parse_results clubF now html, rget r "Date" "" ≠ "" := by
  intro r hr
  rw [parse_results] at hr
  obtain ⟨sec, hsec, hrsec⟩ := List.mem_flatMap.mp hr
  rw [sectionRecords_date clubF _ sec r hrsec]
  cases hfd : findDate html.data with
  | none => simpa [hfd] using hnow
  | some s =>
    simp only [hfd, Option.getD_some]
    exact findDate_ne_empty _ _ hfd

/-- C4 counterexample: a section whose heading text is whitespace only
produces a record whose Event value is the empty string, refuting the
claim that every record carries a non-empty Event. -/
theorem c4_counterexample :
    parse_results "Westbourne" "1970-01-01" demoHtmlBlank
      = [[("parkrunner", "Ann"), ("Club", "Westbourne RC"), ("Event", ""), ("Date", "2024-06-01")]]
    ∧ rget [("parkrunner", "Ann"), ("Club", "Westbourne RC"), ("Event", ""), ("Date", "2024-06-01")]
        "Event" "" = "" := by
  exact ⟨by decide, by decide⟩

/-- Witness for C4 at a concrete input. -/
theorem c4_witness :
    ("1970-01-01" : String) ≠ ""
    ∧ rget [("parkrunner", "Ann"), ("Club", "westbourne rc"), ("Event", "Foo"), ("Date", "2024-06-01")]
        "Date" "" ≠ "" :=
  ⟨by decide,
   c4_amended_nonempty_date "Westbourne" "1970-01-01" demoHtmlA (by decide) _ (by decide)⟩

/-- C6: on data rows, that is rows reached with a positive row index,
the row loop keeps exactly the rows whose Club value contains the club
filter as a case-insensitive substring, in order; concretely, the row
with Club value westbourne rc is included under the filter Westbourne
and the row with Club value Other Harriers is excluded. -/
theorem c6_row_inclusion_iff :
    (∀ (clubF ev d : String) (rows : List (List Char)) (i : Nat) (hs : List String),
        rowsLoop clubF ev d (i + 1) hs rows
          = rows.filterMap (fun row =>
              let cells := cellsOf row
              if cells.isEmpty then none
              else
                let rd := buildRow hs cells
                if subList (lowerS clubF) (lowerS (rget rd "Club" "")) then
                  some (dset (dset rd "Event" ev) "Date" d)
                else none))
    ∧ parse_results "Westbourne" "1970-01-01" demoHtmlA
        = [[("parkrunner", "Ann"), ("Club", "westbourne rc"), ("Event", "Foo"), ("Date", "2024-06-01")]]
    ∧ parse_results "Westbourne" "1970-01-01" demoHtmlB = [] := by
  refine ⟨?_, by decide, by decide⟩
  intro clubF ev d rows
  induction rows with
  | nil =>
    intro i hs
    simp [rowsLoop]
  | cons row rest ih =>
    intro i hs
    by_cases h1 : (cellsOf row).isEmpty = true
    · rw [rowsLoop]
      simp only [h1, if_true, List.filterMap_cons, Nat.add_eq]
      rw [ih (i + 1) hs]
    · by_cases h3 : subList (lowerS clubF) (lowerS (rget (buildRow hs (cellsOf row)) "Club" "")) = true
      · rw [rowsLoop]
        have hi0 : ((i + 1) == 0) = false := by simp
        simp only [h1, hi0, Bool.false_eq_true, if_false, h3, if_true, List.filterMap_cons]
        rw [ih (i + 1) hs]
      · rw [rowsLoop]
        have hi0 : ((i + 1) == 0) = false := by simp
        simp only [h1, hi0, Bool.false_eq_true, if_false, h3, List.filterMap_cons]
        rw [ih (i + 1) hs]

/-- The column name synthesized for a cell index beyond the header. -/
theorem colName_overflow (hs : List String) (j : Nat) (h : hs.length ≤ j) :
    colName hs j = "Column" ++ toString (j + 1) := by
  rw [colName, List.getElem?_eq_none h]

/-- Appending one more cell assigns it under the column name of its
position, on top of the row built from the other cells. -/
theorem buildRowAux_append (hs : List String) (c : String) :
    ∀ (cells : List String) (j : Nat) (acc : Rec),
      buildRowAux hs j acc (cells ++ [c])
        = dset (buildRowAux hs j acc cells) (colName hs (j + cells.length)) c := by
  intro cells
  induction cells with
  | nil =>
    intro j acc
    simp [buildRowAux]
  | cons x xs ih =>
    intro j acc
    rw [List.cons_append, buildRowAux, ih, buildRowAux]
    have hj : j + 1 + xs.length = j + (x :: xs).length := by
      rw [List.length_cons]
      omega
    rw [hj]

/-- C7: a data row with more cells than the header has columns maps
each surplus cell to the synthesized placeholder column named by its
one-based position: in full generality for the last cell of any
overflowing row, for a row of three cells against two headers (the
extra key is Column3 holding the third cell), and end to end on a
report whose data row has three cells under two headers. -/
theorem c7_overflow_columns :
    (∀ (hs cells : List String) (c : String), hs.length ≤ cells.length →
        rget (buildRow hs (cells ++ [c])) ("Column" ++ toString (cells.length + 1)) "" = c)
    ∧ (∀ h1 h2 c1 c2 c3 : String,
        rget (buildRow [h1, h2] [c1, c2, c3]) "Column3" "" = c3)
    ∧ parse_results "Westbourne" "1970-01-01" demoHtmlOverflow
        = [[("parkrunner", "Ann"), ("Club", "Westbourne RC"), ("Column3", "22:10"),
            ("Event", "Foo"), ("Date", "2024-06-01")]] := by
  have hgen : ∀ (hs cells : List String) (c : String), hs.length ≤ cells.length →
      rget (buildRow hs (cells ++ [c])) ("Column" ++ toString (cells.length + 1)) "" = c := by
    intro hs cells c hle
    rw [buildRow, buildRowAux_append, Nat.zero_add, colName_overflow hs cells.length hle]
    exact rget_dset_same _ _ _ _
  refine ⟨hgen, ?_, by decide⟩
  intro h1 h2 c1 c2 c3
  have := hgen [h1, h2] [c1, c2] c3 (by simp)
  simpa using this

/-- Witness for C7 at a concrete input. -/
theorem c7_witness :
    rget (buildRow ["a", "b"] (["x", "y"] ++ ["z"])) ("Column" ++ toString (2 + 1)) "" = "z" :=
  c7_overflow_columns.1 ["a", "b"] ["x", "y"] "z" (by decide)

/-- Every word produced by the split is nonempty and free of
whitespace characters. -/
theorem wordsAux_words_ok :
    ∀ (m : List Char) (cur : List Char), (∀ c ∈ cur, isPySpace c = false) →
      ∀ w ∈ wordsAux cur m, w ≠ [] ∧ ∀ c ∈ w, isPySpace c = false := by
  intro m
  induction m with
  | nil =>
    intro cur hcur w hw
    rw [wordsAux] at hw
    by_cases h : cur.isEmpty = true
    · simp [h] at hw
    · simp only [h, Bool.false_eq_true, if_false, List.mem_singleton] at hw
      subst hw
      constructor
      · intro hrev
        have : cur = [] := by simpa using congrArg List.reverse hrev
        rw [this] at h
        simp at h
      · intro c hc
        exact hcur c (List.mem_reverse.mp hc)
  | cons c cs ih =>
    intro cur hcur w hw
    rw [wordsAux] at hw
    by_cases h1 : isPySpace c = true
    · simp only [h1, if_true] at hw
      by_cases h2 : cur.isEmpty = true
      · simp only [h2, if_true] at hw
        exact ih [] (by simp) w hw
      · simp only [h2, Bool.false_eq_true, if_false, List.mem_cons] at hw
        rcases hw with hw | hw
        · subst hw
          constructor
          · intro hrev
            have : cur = [] := by simpa using congrArg List.reverse hrev
            rw [this] at h2
            simp at h2
          · intro a ha
            exact hcur a (List.mem_reverse.mp ha)
        · exact ih [] (by simp) w hw
    · simp only [h1, Bool.false_eq_true, if_false] at hw
      refine ih (c :: cur) ?_ w hw
      intro a ha
      rcases List.mem_cons.mp ha with ha | ha
      · rw [ha]
        simpa using h1
      · exact hcur a ha

/-- A list with no whitespace characters never has two adjacent
spaces. -/
theorem chain_of_spacefree (l : List Char) (h : ∀ c ∈ l, isPySpace c = false) :
    List.Chain' (fun a b => ¬(a = ' ' ∧ b = ' ')) l := by
  induction l with
  | nil => simp
  | cons c cs ih =>
    cases cs with
    | nil => simp
    | cons c2 cs2 =>
      rw [List.chain'_cons]
      constructor
      · rintro ⟨hc, _⟩
        have := h c (List.mem_cons_self c _)
        rw [hc] at this
        simp [isPySpace] at this
      · exact ih (fun a ha => h a (List.mem_cons_of_mem c ha))

/-- The join of a nonempty first word starts with that word. -/
theorem joinWords_head? (w : List Char) (ws : List (List Char)) :
    (joinWords (w :: ws)).head? = (w ++ [' ']).head? ∨ (joinWords (w :: ws)).head? = w.head? := by
  cases ws with
  | nil => right; rfl
  | cons w2 ws2 =>
    cases w with
    | nil => left; rfl
    | cons a as => right; rfl

/-- The join of words beginning with a nonempty word is nonempty. -/
theorem joinWords_ne_nil (w : List Char) (ws : List (List Char)) (hw : w ≠ []) :
    joinWords (w :: ws) ≠ [] := by
  cases ws with
  | nil => exact hw
  | cons w2 ws2 =>
    cases w with
    | nil => exact absurd rfl hw
    | cons a as => simp [joinWords]

/-- The join of nonempty whitespace-free words uses the single space as
its only whitespace, has no two adjacent spaces, and neither starts nor
ends with whitespace. -/
theorem joinWords_normal :
    ∀ ws : List (List Char), (∀ w ∈ ws, w ≠ [] ∧ ∀ c ∈ w, isPySpace c = false) →
      (∀ c ∈ joinWords ws, isPySpace c = true → c = ' ')
      ∧ List.Chain' (fun a b => ¬(a = ' ' ∧ b = ' ')) (joinWords ws)
      ∧ (∀ c, (joinWords ws).head? = some c → isPySpace c = false)
      ∧ (∀ c, (joinWords ws).getLast? = some c → isPySpace c = false) := by
  intro ws
  induction ws with
  | nil =>
    intro hws
    simp [joinWords]
  | cons w ws2 ih =>
    intro hws
    obtain ⟨hwne, hwfree⟩ := hws w (List.mem_cons_self w ws2)
    cases ws2 with
    | nil =>
      have hjw : joinWords [w] = w := rfl
      rw [hjw]
      refine ⟨?_, chain_of_spacefree w hwfree, ?_, ?_⟩
      · intro c hc hsp
        rw [hwfree c hc] at hsp
        exact absurd hsp (by simp)
      · intro c hc
        exact hwfree c (List.mem_of_mem_head? hc)
      · intro c hc
        exact hwfree c (List.mem_of_mem_getLast? hc)
    | cons w2 ws3 =>
      have hrest : ∀ v ∈ w2 :: ws3, v ≠ [] ∧ ∀ c ∈ v, isPySpace c = false :=
        fun v hv => hws v (List.mem_cons_of_mem w hv)
      obtain ⟨ihall, ihchain, ihhead, ihlast⟩ := ih hrest
      obtain ⟨hw2ne, _⟩ := hrest w2 (List.mem_cons_self w2 ws3)
      have hjoin : joinWords (w :: w2 :: ws3) = w ++ ' ' :: joinWords (w2 :: ws3) := rfl
      have hrne : joinWords (w2 :: ws3) ≠ [] := joinWords_ne_nil w2 ws3 hw2ne
      rw [hjoin]
      refine ⟨?_, ?_, ?_, ?_⟩
      · intro c hc hsp
        rcases List.mem_append.mp hc with hc | hc
        · rw [hwfree c hc] at hsp
          exact absurd hsp (by simp)
        · rcases List.mem_cons.mp hc with hc | hc
          · exact hc
          · exact ihall c hc hsp
      · rw [List.chain'_append]
        refine ⟨chain_of_spacefree w hwfree, ?_, ?_⟩
        · rw [List.chain'_cons']
          refine ⟨?_, ihchain⟩
          intro y hy
          rintro ⟨_, hy2⟩
          have := ihhead y hy
          rw [hy2] at this
          simp [isPySpace] at this
        · intro x hx y hy
          rintro ⟨hx2, _⟩
          have := hwfree x (List.mem_of_mem_getLast? hx)
          rw [hx2] at this
          simp [isPySpace] at this
      · intro c hc
        cases w with
        | nil => exact absurd rfl hwne
        | cons a as =>
          rw [List.cons_append] at hc
          injection hc with hc
          subst hc
          exact hwfree a (List.mem_cons_self a as)
      · intro c hc
        obtain ⟨x, hx⟩ : ∃ x, (joinWords (w2 :: ws3)).getLast? = some x := by
          cases hj : (joinWords (w2 :: ws3)).getLast? with
          | none => exact absurd (List.getLast?_eq_none_iff.mp hj) hrne
          | some x => exact ⟨x, rfl⟩
        have hxc : (' ' :: joinWords (w2 :: ws3)).getLast? = some x := by
          cases hj : joinWords (w2 :: ws3) with
          | nil => exact absurd hj hrne
          | cons b bs =>
            rw [hj] at hx
            rw [List.getLast?_cons_cons]
            exact hx
        rw [List.getLast?_append, hxc] at hc
        simp only [Option.or_some] at hc
        injection hc with hc
        subst hc
        exact ihlast x hx

/-- Stripping is the identity on a list that neither starts nor ends
with whitespace. -/
theorem pyStripL_of_normal (l : List Char)
    (hh : ∀ c, l.head? = some c → isPySpace c = false)
    (hl : ∀ c, l.getLast? = some c → isPySpace c = false) : pyStripL l = l := by
  rw [pyStripL]
  have h1 : l.dropWhile isPySpace = l := by
    cases l with
    | nil => rfl
    | cons c cs =>
      rw [List.dropWhile_cons, hh c rfl]
      simp
  rw [h1]
  have h2 : l.reverse.dropWhile isPySpace = l.reverse := by
    cases hr : l.reverse with
    | nil => rfl
    | cons c cs =>
      have hlast : l.getLast? = some c := by
        rw [← List.head?_reverse, hr]
        rfl
      rw [List.dropWhile_cons, hl c hlast]
      simp
  rw [h2, List.reverse_reverse]

/-- C8: clean_text strips markup tags and decodes entities (checked on
the concrete input of the spec, which cleans to 12:34), and on every
input its output is whitespace-normalized: the only whitespace
character it can contain is the single space, no two spaces are
adjacent, and the output neither starts nor ends with whitespace. -/
theorem c8_clean_text_normalizes :
    clean_text "<b>12:34</b>&nbsp;" = "12:34"
    ∧ ∀ s : String,
        (∀ c ∈ (clean_text s).data, isPySpace c = true → c = ' ')
        ∧ List.Chain' (fun a b => ¬(a = ' ' ∧ b = ' ')) (clean_text s).data
        ∧ (∀ c, (clean_text s).data.head? = some c → isPySpace c = false)
        ∧ (∀ c, (clean_text s).data.getLast? = some c → isPySpace c = false) := by
  refine ⟨by decide, ?_⟩
  intro s
  have hwords := wordsAux_words_ok (unescapeL (stripTags s.data.length s.data)) [] (by simp)
  obtain ⟨hall, hchain, hhead, hlast⟩ := joinWords_normal _ hwords
  have hstrip := pyStripL_of_normal _ hhead hlast
  have hdata : (clean_text s).data = joinWords (wordsAux [] (unescapeL (stripTags s.data.length s.data))) := by
    rw [clean_text, cleanL, hstrip]
  rw [hdata]
  exact ⟨hall, hchain, hhead, hlast⟩

/-- Witness for C8 at a concrete input. -/
theorem c8_witness : isPySpace 'a' = false :=
  (c8_clean_text_normalizes.2 " a  b ").2.2.1 'a' (by decide)

/-- C10: in a three-week backfill whose latest report is dated
2024-06-01, the historical weeks queried are 2024-05-25 and then
2024-05-18; a transport error raised while fetching 2024-05-25 abandons
only that iteration, so the run still persists the records of
2024-06-01 and 2024-05-18 into the dataset. -/
theorem c10_backfill_partial_failure :
    fmtDate (subDays (2024, 6, 1) (7 * 1)) = "2024-05-25"
    ∧ fmtDate (subDays (2024, 6, 1) (7 * 2)) = "2024-05-18"
    ∧ demoOracle (some "2024-05-25") = .error ()
    ∧ backfill_weeks "Westbourne" "1970-01-01" demoOracle 3 none
        = .ok (some ⟨canonicalFields,
            [["2024-06-01", "Foo", "", "", "Ann", "westbourne rc", ""],
             ["2024-05-18", "Bar", "", "", "Bob", "Westbourne RC", ""]]⟩) := by
  refine ⟨by decide, by decide, rfl, rfl⟩
